import Mathlib

set_option maxRecDepth 100000

/-!
Verification of the leaf-to-XPath addressing engine of generateXPaths.js.
The definitions below are a shallow embedding of the parsed-XML value model
(the output shape of fast-xml-parser) and of the traversal, signature
indexing, predicate building, composite grouping and path assembly logic of
the source.  String manipulation is carried out on character lists so that
every definition evaluates inside the kernel.
-/

namespace XPathGen

/- Character-level string helpers mirroring the JavaScript string methods
used by the source (toUpperCase, trim, split on a character, indexOf). -/

def upperStr (s : String) : String := String.mk (s.data.map Char.toUpper)

def trimChars (l : List Char) : List Char :=
  ((l.dropWhile Char.isWhitespace).reverse.dropWhile Char.isWhitespace).reverse

def trimStr (s : String) : String := String.mk (trimChars s.data)

def splitOnChar (c : Char) : List Char → List (List Char)
  | [] => [[]]
  | x :: xs =>
    let r := splitOnChar c xs
    if x = c then [] :: r
    else
      match r with
      | [] => [[x]]
      | y :: ys => (x :: y) :: ys

def startsWithChars : List Char → List Char → Bool
  | [], _ => true
  | _ :: _, [] => false
  | p :: ps, c :: cs => p == c && startsWithChars ps cs

def containsChars (pat : List Char) : List Char → Bool
  | [] => startsWithChars pat []
  | c :: cs => startsWithChars pat (c :: cs) || containsChars pat cs

/-- Test for p.indexOf(pat) being different from -1 in JavaScript. -/
def containsSubstr (s pat : String) : Bool := containsChars pat.data s.data

/-- Function bareTag of the source: the tag text after the first colon, or
the whole tag when no colon occurs. -/
def afterColon : List Char → Option (List Char)
  | [] => none
  | c :: rest => if c = ':' then some rest else afterColon rest

def bareTag (tag : String) : String :=
  match afterColon tag.data with
  | none => tag
  | some r => String.mk r

/- Literal Formatter: function formatXPathLiteral of the source. -/

def quoteTok (p : List Char) : List Char := '\'' :: (p ++ ['\''])

/-- The concatParts loop of formatXPathLiteral: each non-empty segment is
single quoted, and a double-quoted single quote token is placed after every
segment except the last. -/
def concatTokens : List (List Char) → List (List Char)
  | [] => []
  | [p] => if p.length > 0 then [quoteTok p] else []
  | p :: rest =>
    (if p.length > 0 then [quoteTok p] else []) ++ (['"', '\'', '"'] :: concatTokens rest)

def joinComma : List (List Char) → List Char
  | [] => []
  | [t] => t
  | t :: ts => t ++ ',' :: joinComma ts

def formatXPathLiteral (value : String) : String :=
  if value.data.contains '\'' = false then "'" ++ value ++ "'"
  else if value.data.contains '"' = false then "\"" ++ value ++ "\""
  else String.mk ("concat(".data ++ joinComma (concatTokens (splitOnChar '\'' value.data)) ++ [')'])

/- Parsed-XML value model. -/

mutual
inductive JVal where
  | str : String → JVal
  | obj : List (String × String) → Option String → JChildren → JVal

inductive JChildren where
  | nil : JChildren
  | cons : String → Bool → JList → JChildren → JChildren

inductive JList where
  | nil : JList
  | cons : JVal → JList → JList
end

/-- Result of function isLeafNode of the source: leaf-ness together with the
trimmed direct text (empty when absent). -/
structure LeafInfo where
  leaf : Bool
  text : String
deriving DecidableEq

def isLeafNode : JVal → LeafInfo
  | .str s => ⟨true, trimStr s⟩
  | .obj _ txt .nil => ⟨true, match txt with | some t => trimStr t | none => ""⟩
  | .obj _ _ (.cons _ _ _ _) => ⟨false, ""⟩

/-- Extraction of the text of a found child key, as in getChildText: a plain
string child or an object child with direct text yields its trimmed text; an
array-valued key yields nothing. -/
def childTextOf : Bool → JList → Option String
  | true, _ => none
  | false, .cons (.str s) .nil => some (trimStr s)
  | false, .cons (.obj _ (some t) _) .nil => some (trimStr t)
  | false, _ => none

def findChild (childTag : String) : JChildren → Option (Bool × JList)
  | .nil => none
  | .cons k isArr elems rest =>
    if upperStr (bareTag k) = upperStr childTag then some (isArr, elems)
    else findChild childTag rest

/-- Scan of the attribute keys by getChildText: the keys carry the raw
attribute prefix of the parser, and bareTag strips through the first colon,
so a namespace-prefixed attribute name can match the searched tag. -/
def findAttrKey (childTag : String) : List (String × String) → Option String
  | [] => none
  | (k, v) :: rest =>
    if upperStr (bareTag k) = upperStr childTag then some v
    else findAttrKey childTag rest

/-- Function getChildText of the source (lines 111 to 120): the search runs
over every key of the parsed object, not only the element keys - the parser
assembles an element object from its compressed children first (element
keys in document order, then the collected text key), and appends the
attribute keys afterwards, so the scan order is element keys, the text key,
attribute keys.  The value of the first key whose bare tag matches the
searched tag case-insensitively is inspected: a plain string is returned
trimmed, an object yields its trimmed direct text, an array yields
nothing.  Later keys are never consulted. -/
def getChildText (node : JVal) (childTag : String) : Option String :=
  match node with
  | .str _ => none
  | .obj attrs txt children =>
    match findChild childTag children with
    | some (isArr, elems) => childTextOf isArr elems
    | none =>
      match txt with
      | some t =>
        if upperStr (bareTag "#text") = upperStr childTag then some (trimStr t)
        else
          match findAttrKey childTag attrs with
          | some v => some (trimStr v)
          | none => none
      | none =>
        match findAttrKey childTag attrs with
        | some v => some (trimStr v)
        | none => none

def findAttr (name : String) : List (String × String) → Option String
  | [] => none
  | (k, v) :: rest => if k = name then some v else findAttr name rest

/-- Attribute lookup: the hasOwnProperty test on the attribute key of the
source, returning the raw attribute string. -/
def lookupAttr (node : JVal) (name : String) : Option String :=
  match node with
  | .str _ => none
  | .obj attrs _ _ => findAttr name attrs

/-- Engine configuration after the config-normalisation phase of the source:
includeElements entries are upper-cased bare tags, filterParent is an
upper-cased tag or absent, filterChild a non-empty tag or absent. -/
structure Config where
  nsShort : String
  includeElements : List String
  attrName : String
  filterParent : Option String
  filterChild : Option String

/-- First predicate rule of predicateStringForElement (lines 128 to 131 of
the source): when the bare tag matches the configured filter-parent type and
the configured filter-child is a direct child with non-empty trimmed text,
the child text is rendered in attribute-predicate syntax. -/
def childPredOf (cfg : Config) (tag : String) (nodeObj : JVal) : Option String :=
  match cfg.filterParent, cfg.filterChild with
  | some fp, some fc =>
    if upperStr (bareTag tag) = fp then
      match getChildText nodeObj fc with
      | some cv => if cv = "" then none else some ("[@" ++ fc ++ "=" ++ formatXPathLiteral cv ++ "]")
      | none => none
    else none
  | _, _ => none

/-- Second predicate rule (lines 132 to 140 of the source): the single
configured attribute, when present with non-empty trimmed value. -/
def attrPredOf (cfg : Config) (nodeObj : JVal) : String :=
  if cfg.attrName = "" then ""
  else
    match lookupAttr nodeObj ("@_" ++ cfg.attrName) with
    | some raw => if (trimStr raw).length > 0 then "[@" ++ cfg.attrName ++ "=" ++ formatXPathLiteral raw ++ "]" else ""
    | none => ""

/-- Function predicateStringForElement of the source: the child-text rule
fires first, else the attribute rule, else the empty string. -/
def predicateStringForElement (cfg : Config) (tag : String) (nodeObj : JVal) : String :=
  match childPredOf cfg tag nodeObj with
  | some p => p
  | none => attrPredOf cfg nodeObj

/-- Function buildStepWithIndex of the source: namespace-prefixed bare tag
plus predicate, with the numeric index appended when present and either
forced or greater than one. -/
def buildStepWithIndex (cfg : Config) (tag : String) (nodeObj : JVal)
    (assignedIndex : Option Nat) (alwaysIncludeIndex : Bool) : String :=
  let base := cfg.nsShort ++ ":" ++ bareTag tag ++ predicateStringForElement cfg tag nodeObj
  match assignedIndex with
  | some n => if alwaysIncludeIndex ∨ n > 1 then base ++ "[" ++ toString n ++ "]" else base
  | none => base

def buildNormalStep (cfg : Config) (tag : String) (nodeObj : JVal) (assignedIndex : Nat) : String :=
  buildStepWithIndex cfg tag nodeObj (some assignedIndex) false

/- Ordered maps, modelling the JavaScript Map objects of the source
(signatureCounts, compositeKeyCounters, compositeInstanceToNumber). -/

def mapGet (m : List (String × Nat)) (k : String) : Option Nat :=
  match m with
  | [] => none
  | p :: rest => if p.1 = k then some p.2 else mapGet rest k

def mapGetD (m : List (String × Nat)) (k : String) : Nat := (mapGet m k).getD 0

def mapSet (m : List (String × Nat)) (k : String) (v : Nat) : List (String × Nat) :=
  match m with
  | [] => [(k, v)]
  | p :: rest => if p.1 = k then (k, v) :: rest else p :: mapSet rest k v

/-- Signature Indexer step (lines 175 to 177 of the source): read the running
count of the signature, add one, store the new count, and assign it. -/
def assignIndex (sig : String) (m : List (String × Nat)) : Nat × List (String × Nat) :=
  let n := mapGetD m sig + 1
  (n, mapSet m sig n)

/-- Composite tables: key counters and the instance cache. -/
structure CMaps where
  keyCounters : List (String × Nat)
  instToNumber : List (String × Nat)

/-- Composite number allocation (lines 224 to 233 of the source, used again
at lines 293 to 302): a cached instance key reuses its number, a fresh one
takes the next counter value of its composite key and is cached. -/
def allocComposite (key instKey : String) (m : CMaps) : Nat × CMaps :=
  match mapGet m.instToNumber instKey with
  | some n => (n, m)
  | none =>
    let next := mapGetD m.keyCounters key + 1
    (next, ⟨mapSet m.keyCounters key next, mapSet m.instToNumber instKey next⟩)

/-- Ancestor frame built for every visited element instance: original tag,
element value, position in the sibling group and the globally assigned
signature index. -/
structure Frame where
  tag : String
  node : JVal
  pos : Nat
  assignedIndex : Nat

/-- Traversal state: the three maps, the collected output lines and the two
diagnostic counters of the source. -/
structure TState where
  signatureCounts : List (String × Nat)
  compositeKeyCounters : List (String × Nat)
  compositeInstanceToNumber : List (String × Nat)
  results : List String
  totalLeaves : Nat
  leavesWithIncludedAncestors : Nat

def initState : TState := ⟨[], [], [], [], 0, 0⟩

/-- One element signature: namespace-prefixed bare tag plus predicate, as
computed at line 174 and reused for composite keys at line 217. -/
def sigOf (cfg : Config) (tag : String) (node : JVal) : String :=
  cfg.nsShort ++ ":" ++ bareTag tag ++ predicateStringForElement cfg tag node

/-- Membership of a tag in the inclusion set (comparison of the upper-cased
bare tag with the upper-cased configured entries). -/
def includedTag (cfg : Config) (t : String) : Bool :=
  cfg.includeElements.contains (upperStr (bareTag t))

/-- Ancestor Filter: the ordered included subsequence of the chain, each
frame paired with its position idxInNew in the original chain. -/
def includedOf (cfg : Config) (l : List Frame) : List (Nat × Frame) :=
  l.enum.filter (fun p => includedTag cfg p.2.tag)

/-- Start-anchor test of the composite engine (lines 194 to 199): a frame
whose predicate is non-empty and mentions the configured attribute. -/
def isStartAnchor (cfg : Config) (p : Nat × Frame) : Bool :=
  let pr := predicateStringForElement cfg p.2.tag p.2.node
  decide (pr ≠ "") && containsSubstr pr ("@" ++ cfg.attrName ++ "=")

/-- Group-anchor test (lines 202 to 208 and 281 to 287): a frame of the
filter-parent type carrying a non-empty predicate. -/
def isGroupAnchor (cfg : Config) (p : Nat × Frame) : Bool :=
  match cfg.filterParent with
  | none => false
  | some fp =>
    decide (upperStr (bareTag p.2.tag) = fp) &&
      decide (predicateStringForElement cfg p.2.tag p.2.node ≠ "")

/-- Instance identity of one frame inside a composite slice (line 221). -/
def instPart (cfg : Config) (f : Frame) : String :=
  cfg.nsShort ++ ":" ++ bareTag f.tag ++ "#" ++ toString f.assignedIndex

/-- Slice step rendering (lines 236 to 243): the filter-parent type renders
without any numeric index, every other frame carries its index even when it
equals one. -/
def insideStep (cfg : Config) (f : Frame) : String :=
  let isFP : Bool :=
    match cfg.filterParent with
    | some fp => decide (upperStr (bareTag f.tag) = fp)
    | none => false
  if isFP then buildStepWithIndex cfg f.tag f.node none false
  else buildStepWithIndex cfg f.tag f.node (some f.assignedIndex) true

/-- Adjacency joining of already rendered steps: a step whose original chain
position is one greater than that of the previous step follows a single
slash, any other follows a double slash (lines 245 to 251). -/
def joinInside (prevIdx : Nat) : List (Nat × String) → String
  | [] => ""
  | (i, s) :: rest => (if i = prevIdx + 1 then "/" else "//") ++ s ++ joinInside i rest

/-- The reduce of lines 245 to 251 over the slice step list. -/
def insideJoined (cfg : Config) (slice : List (Nat × Frame)) : String :=
  match slice with
  | [] => ""
  | (i0, f0) :: rest => insideStep cfg f0 ++ joinInside i0 (rest.map (fun p => (p.1, insideStep cfg p.2)))

/-- Trailing included ancestors after the group anchor, joined by the
adjacency rule (lines 256 to 263 and 306 to 313 and 329 to 339). -/
def afterSteps (cfg : Config) (prevIdx : Nat) : List (Nat × Frame) → String
  | [] => ""
  | (i, f) :: rest =>
    (if i = prevIdx + 1 then "/" else "//") ++ buildNormalStep cfg f.tag f.node f.assignedIndex ++
      afterSteps cfg i rest

/-- Leaf step appended with the adjacency rule and no numeric index, used by
the two grouped tiers (lines 265 to 276 and 315 to 324). -/
def leafPartAdj (cfg : Config) (lastInc : Nat × Frame) (thisFr : Frame) (thisIdxInNew : Nat) : String :=
  if upperStr (bareTag lastInc.2.tag) = upperStr (bareTag thisFr.tag) then ""
  else (if thisIdxInNew = lastInc.1 + 1 then "/" else "//") ++
    buildStepWithIndex cfg thisFr.tag thisFr.node none false

/-- Leaf step of the plain tier (lines 341 to 347): always joined with a
double slash, never with a numeric index. -/
def leafPartPlain (cfg : Config) (lastInc : Nat × Frame) (thisFr : Frame) : String :=
  if upperStr (bareTag lastInc.2.tag) = upperStr (bareTag thisFr.tag) then ""
  else "//" ++ buildStepWithIndex cfg thisFr.tag thisFr.node none false

/-- Fallback tiers of the composite engine (lines 279 to 351): a grouped
address on the group anchor alone when one exists, else the plain
included-only path. -/
def computeFallback (cfg : Config) (incl : List (Nat × Frame)) (thisFr : Frame)
    (newLen : Nat) (lastInc : Nat × Frame) (m : CMaps) : String × CMaps :=
  match incl.findIdx? (fun p => isGroupAnchor cfg p) with
  | some ii =>
    match incl.get? ii with
    | none => ("", m)
    | some gAnc =>
      let s := sigOf cfg gAnc.2.tag gAnc.2.node
      let instanceKey := s ++ "::" ++ instPart cfg gAnc.2
      let r := allocComposite s instanceKey m
      let grouped := "(//" ++ s ++ ")[" ++ toString r.1 ++ "]"
      (grouped ++ afterSteps cfg gAnc.1 (incl.drop (ii + 1)) ++
        leafPartAdj cfg lastInc thisFr (newLen - 1), r.2)
  | none =>
    let body :=
      match incl with
      | [] => ""
      | (i0, f0) :: rest => buildNormalStep cfg f0.tag f0.node f0.assignedIndex ++ afterSteps cfg i0 rest
    ("//" ++ body ++ leafPartPlain cfg lastInc thisFr, m)

/-- Path assembly for one emitted leaf (lines 192 to 351): the composite
tier when the start anchor precedes the group anchor, else the fallback
tiers.  The caller guarantees a non-empty included ancestor list. -/
def computeXPath (cfg : Config) (incl : List (Nat × Frame)) (thisFr : Frame)
    (newLen : Nat) (m : CMaps) : String × CMaps :=
  match incl.getLast? with
  | none => ("", m)
  | some lastInc =>
    let startIdx := (incl.findIdx? (fun p => isStartAnchor cfg p)).getD 0
    match incl.findIdx? (fun p => isGroupAnchor cfg p) with
    | some ii =>
      if startIdx ≤ ii then
        let slice := (incl.drop startIdx).take (ii - startIdx + 1)
        let compositeKey := String.intercalate "||" (slice.map (fun p => sigOf cfg p.2.tag p.2.node))
        let instanceKey := compositeKey ++ "::" ++
          String.intercalate "," (slice.map (fun p => instPart cfg p.2))
        let r := allocComposite compositeKey instanceKey m
        let grouped := "(//" ++ insideJoined cfg slice ++ ")[" ++ toString r.1 ++ "]"
        let after :=
          match incl.get? ii with
          | some gAnc => afterSteps cfg gAnc.1 (incl.drop (ii + 1))
          | none => ""
        (grouped ++ after ++ leafPartAdj cfg lastInc thisFr (newLen - 1), r.2)
      else computeFallback cfg incl thisFr newLen lastInc m
    | none => computeFallback cfg incl thisFr newLen lastInc m

/-- The leaf diagnostic counter update of line 183 of the source. -/
def bumpLeaves (b : Bool) (st : TState) : TState :=
  if b then { st with totalLeaves := st.totalLeaves + 1 } else st

theorem bumpLeaves_results (b : Bool) (st : TState) : (bumpLeaves b st).results = st.results := by
  unfold bumpLeaves
  split <;> rfl

theorem bumpLeaves_sig (b : Bool) (st : TState) :
    (bumpLeaves b st).signatureCounts = st.signatureCounts := by
  unfold bumpLeaves
  split <;> rfl

theorem bumpLeaves_keyCounters (b : Bool) (st : TState) :
    (bumpLeaves b st).compositeKeyCounters = st.compositeKeyCounters := by
  unfold bumpLeaves
  split <;> rfl

theorem bumpLeaves_instToNumber (b : Bool) (st : TState) :
    (bumpLeaves b st).compositeInstanceToNumber = st.compositeInstanceToNumber := by
  unfold bumpLeaves
  split <;> rfl

/-- Per-element bookkeeping and emission (lines 172 to 354 of traverseNode,
without the recursive descent): assign the signature index, build the frame,
count leaves, and emit one output line when the element is a leaf with
non-empty trimmed text and at least one included ancestor-or-self. -/
def visitEmit (cfg : Config) (tag : String) (el : JVal) (idx : Nat) (anc : List Frame)
    (st : TState) : TState × Frame :=
  let sig := sigOf cfg tag el
  let a := assignIndex sig st.signatureCounts
  let st1 : TState := { st with signatureCounts := a.2 }
  let fr : Frame := ⟨tag, el, idx, a.1⟩
  let newAncestors := anc ++ [fr]
  let li := isLeafNode el
  let st2 := bumpLeaves li.leaf st1
  let incl := includedOf cfg newAncestors
  if li.leaf ∧ li.text.length > 0 ∧ incl.length > 0 then
    let st3 := { st2 with leavesWithIncludedAncestors := st2.leavesWithIncludedAncestors + 1 }
    let r := computeXPath cfg incl fr newAncestors.length
      ⟨st3.compositeKeyCounters, st3.compositeInstanceToNumber⟩
    ({ st3 with
        compositeKeyCounters := r.2.keyCounters,
        compositeInstanceToNumber := r.2.instToNumber,
        results := st3.results ++ [li.text ++ " : " ++ r.1] }, fr)
  else (st2, fr)

/- Tree Walker: function traverseNode of the source, iterating the element
keys of an object in order, normalising single values and arrays to element
sequences, visiting every element and recursing into non-leaves. -/

mutual
def traverseNode (cfg : Config) (node : JVal) (anc : List Frame) (st : TState) : TState :=
  match node with
  | .str _ => st
  | .obj _ _ children => goChildren cfg children anc st
termination_by structural node

def goChildren (cfg : Config) (cs : JChildren) (anc : List Frame) (st : TState) : TState :=
  match cs with
  | .nil => st
  | .cons tag _ elems rest => goChildren cfg rest anc (goElems cfg tag elems 0 anc st)
termination_by structural cs

def goElems (cfg : Config) (tag : String) (elems : JList) (idx : Nat) (anc : List Frame)
    (st : TState) : TState :=
  match elems with
  | .nil => st
  | .cons el rest =>
    let r := visitEmit cfg tag el idx anc st
    let st2 := if (isLeafNode el).leaf then r.1 else traverseNode cfg el (anc ++ [r.2]) r.1
    goElems cfg tag rest (idx + 1) anc st2
termination_by structural elems
end

/-- The per-element body of the forEach of traverseNode: bookkeeping and
emission, then descent into non-leaves with the extended chain. -/
def visitElement (cfg : Config) (tag : String) (el : JVal) (idx : Nat) (anc : List Frame)
    (st : TState) : TState :=
  let r := visitEmit cfg tag el idx anc st
  if (isLeafNode el).leaf then r.1 else traverseNode cfg el (anc ++ [r.2]) r.1

theorem goElems_cons (cfg : Config) (tag : String) (el : JVal) (rest : JList) (idx : Nat)
    (anc : List Frame) (st : TState) :
    goElems cfg tag (.cons el rest) idx anc st
      = goElems cfg tag rest (idx + 1) anc (visitElement cfg tag el idx anc st) := rfl

/-- One full engine run: traverse the parsed document from the empty state
and collect the ordered output lines. -/
def runEngine (cfg : Config) (doc : JVal) : List String :=
  (traverseNode cfg doc [] initState).results

/-- The built-in default configuration of the source after normalisation. -/
def defaultCfg : Config :=
  ⟨"d", ["PROPERTY", "IMAGE"], "ValuationUseType", some "IMAGE", some "ImageCategoryType"⟩

/- Example documents used by the claim theorems. -/

def oneChild (tag : String) (v : JVal) : JChildren := .cons tag false (.cons v .nil) .nil

/-- Inner IMAGE node of exDocPlain. -/
def exPlainImage : JVal := .obj [] none (oneChild "d:Category" (.str "Front"))

/-- Parsed form of the document PROPERTY containing IMAGE containing a
Category leaf with text Front, with no attributes anywhere. -/
def exDocPlain : JVal :=
  .obj [] none (oneChild "d:PROPERTY" (.obj [] none (oneChild "d:IMAGE" exPlainImage)))

/-- IMAGE node carrying an ImageCategoryType child and a Caption child. -/
def exImageNode : JVal :=
  .obj [] none
    (.cons "d:ImageCategoryType" false (.cons (.str "Front") .nil)
      (.cons "d:Caption" false (.cons (.str "Hi") .nil) .nil))

/-- PROPERTY node carrying a ValuationUseType attribute and one IMAGE. -/
def exPropNode : JVal :=
  .obj [("@_ValuationUseType", "Ext")] none (oneChild "d:IMAGE" exImageNode)

/-- Parsed form of a document exercising the composite grouping tier. -/
def exDocComposite : JVal := .obj [] none (oneChild "d:PROPERTY" exPropNode)

/-- Frames as built by the traversal of exDocComposite. -/
def exPropFrame : Frame := ⟨"d:PROPERTY", exPropNode, 0, 1⟩

def exImageFrame : Frame := ⟨"d:IMAGE", exImageNode, 0, 1⟩

def exLeafFrame : Frame := ⟨"d:ImageCategoryType", .str "Front", 0, 1⟩

/-- Frames as built by the traversal of exDocPlain. -/
def exPlainImageFrame : Frame := ⟨"d:IMAGE", exPlainImage, 0, 1⟩

def exPlainLeafFrame : Frame := ⟨"d:Category", .str "Front", 0, 1⟩

/-- Children with no ImageCategoryType element. -/
def cexC7Children : JChildren := .cons "d:Caption" false (.cons (.str "Hi") .nil) .nil

/-- IMAGE node carrying the configured ValuationUseType attribute and a
namespace-prefixed attribute whose local name equals the configured
filter-child, but no ImageCategoryType child element. -/
def cexC7Node : JVal :=
  .obj [("@_ValuationUseType", "X"), ("@_d:ImageCategoryType", "Rear")] none cexC7Children

/-- C3: on the plain path, a selected ancestor step whose original chain
position is exactly one greater than the previous selected position is
joined with a single slash and any other with a double slash; and the engine
emits exactly the line Front : //d:PROPERTY/d:IMAGE//d:Category for the
document PROPERTY, IMAGE, Category with the inclusion set PROPERTY and
IMAGE and no predicates firing. -/
theorem C3_plain_adjacency :
    (∀ (cfg : Config) (prevIdx i : Nat) (f : Frame) (rest : List (Nat × Frame)),
      (i = prevIdx + 1 →
        afterSteps cfg prevIdx ((i, f) :: rest)
          = "/" ++ buildNormalStep cfg f.tag f.node f.assignedIndex ++ afterSteps cfg i rest) ∧
      (i ≠ prevIdx + 1 →
        afterSteps cfg prevIdx ((i, f) :: rest)
          = "//" ++ buildNormalStep cfg f.tag f.node f.assignedIndex ++ afterSteps cfg i rest)) ∧
    runEngine defaultCfg exDocPlain = ["Front : //d:PROPERTY/d:IMAGE//d:Category"] := by
  constructor
  · intro cfg prevIdx i f rest
    constructor <;> intro h <;> simp [afterSteps, h, String.append_assoc]
  · decide

/-- Witness for C3_plain_adjacency: the adjacency conjunct applied at one
concrete adjacent pair. -/
theorem C3_plain_adjacency_witness :
    afterSteps defaultCfg 0 [(1, exPlainImageFrame)] = "/d:IMAGE" := by
  have h := (C3_plain_adjacency.1 defaultCfg 0 1 exPlainImageFrame []).1 rfl
  exact h.trans (by decide)

/-- C4 counterexample: in the composite tier of exDocComposite the start
anchor is at filtered position 0 and the group anchor at 1, the PROPERTY
frame of the rendered slice has assigned index 1, yet its rendered step
carries the numeric index 1, differing from the index-free rendering the
claim requires for indices not exceeding one. -/
theorem C4_counterexample :
    exPropFrame.assignedIndex = 1 ∧
    (includedOf defaultCfg [exPropFrame, exImageFrame, exLeafFrame]).findIdx?
      (fun p => isStartAnchor defaultCfg p) = some 0 ∧
    (includedOf defaultCfg [exPropFrame, exImageFrame, exLeafFrame]).findIdx?
      (fun p => isGroupAnchor defaultCfg p) = some 1 ∧
    insideStep defaultCfg exPropFrame = "d:PROPERTY[@ValuationUseType='Ext'][1]" ∧
    insideStep defaultCfg exPropFrame
      ≠ buildStepWithIndex defaultCfg exPropFrame.tag exPropFrame.node none false ∧
    runEngine defaultCfg exDocComposite =
      ["Front : (//d:PROPERTY[@ValuationUseType='Ext'][1]/d:IMAGE[@ImageCategoryType='Front'])[1]/d:ImageCategoryType",
       "Hi : (//d:PROPERTY[@ValuationUseType='Ext'][1]/d:IMAGE[@ImageCategoryType='Front'])[1]/d:Caption"] := by
  refine ⟨rfl, by decide, by decide, by decide, by decide, by decide⟩

/-- C5 counterexample: in exDocPlain the Category leaf sits at chain
position 2, immediately after the last selected ancestor IMAGE at filtered
chain position 1, so the claimed adjacency rule demands a single slash
before the leaf step; the plain tier nevertheless joins it with a double
slash, as both the leaf join function and the full run show. -/
theorem C5_counterexample :
    leafPartPlain defaultCfg (1, exPlainImageFrame) exPlainLeafFrame = "//d:Category" ∧
    leafPartAdj defaultCfg (1, exPlainImageFrame) exPlainLeafFrame 2 = "/d:Category" ∧
    runEngine defaultCfg exDocPlain = ["Front : //d:PROPERTY/d:IMAGE//d:Category"] ∧
    ("Front : //d:PROPERTY/d:IMAGE//d:Category" : String)
      ≠ "Front : //d:PROPERTY/d:IMAGE/d:Category" := by
  refine ⟨by decide, by decide, by decide, by decide⟩

/-- C7 counterexample: on an IMAGE element carrying the configured
ValuationUseType attribute, a namespace-prefixed d:ImageCategoryType
attribute and no ImageCategoryType child element, the claim demands the
attribute predicate built from ValuationUseType; but getChildText scans
every object key and bareTag strips through the colon of the attribute
name, so the child-text rule fires from the attribute value instead,
breaking the claimed otherwise-ordering. -/
theorem C7_counterexample :
    findChild "ImageCategoryType" cexC7Children = none ∧
    lookupAttr cexC7Node "@_ValuationUseType" = some "X" ∧
    predicateStringForElement defaultCfg "d:IMAGE" cexC7Node = "[@ImageCategoryType='Rear']" ∧
    ("[@ImageCategoryType='Rear']" : String) ≠ "[@ValuationUseType='X']" := by
  refine ⟨rfl, by decide, by decide, by decide⟩

/-- C7 amended: the predicate builder applies the child-text rule first,
else the attribute rule, else returns the empty string, and its output is
always a single rule's predicate, never a combination; the child-text value
comes from the first object key whose colon-stripped name matches the
filter-child case-insensitively, and when no child element matches, a
namespace-prefixed attribute key can supply that value. -/
theorem C7_predicate_first_rule_wins (cfg : Config) (tag : String) (el : JVal) :
    (∀ fp fc cv, cfg.filterParent = some fp → cfg.filterChild = some fc →
      upperStr (bareTag tag) = fp → getChildText el fc = some cv → cv ≠ "" →
      predicateStringForElement cfg tag el = "[@" ++ fc ++ "=" ++ formatXPathLiteral cv ++ "]") ∧
    (∀ fp fc v attrs children, cfg.filterParent = some fp → cfg.filterChild = some fc →
      upperStr (bareTag tag) = fp → findChild fc children = none →
      findAttrKey fc attrs = some v → trimStr v ≠ "" →
      predicateStringForElement cfg tag (.obj attrs none children)
        = "[@" ++ fc ++ "=" ++ formatXPathLiteral (trimStr v) ++ "]") ∧
    (∀ raw, childPredOf cfg tag el = none → cfg.attrName ≠ "" →
      lookupAttr el ("@_" ++ cfg.attrName) = some raw → (trimStr raw).length > 0 →
      predicateStringForElement cfg tag el
        = "[@" ++ cfg.attrName ++ "=" ++ formatXPathLiteral raw ++ "]") ∧
    (predicateStringForElement cfg tag el = "" ∨
      (∃ fc cv, cfg.filterChild = some fc ∧ getChildText el fc = some cv ∧
        predicateStringForElement cfg tag el = "[@" ++ fc ++ "=" ++ formatXPathLiteral cv ++ "]") ∨
      (∃ raw, lookupAttr el ("@_" ++ cfg.attrName) = some raw ∧
        predicateStringForElement cfg tag el
          = "[@" ++ cfg.attrName ++ "=" ++ formatXPathLiteral raw ++ "]")) := by
  refine ⟨?_, ?_, ?_, ?_⟩
  · intro fp fc cv hfp hfc hb hct hcv
    simp [predicateStringForElement, childPredOf, hfp, hfc, hb, hct, hcv]
  · intro fp fc v attrs children hfp hfc hb hnc hak htr
    have hct : getChildText (.obj attrs none children) fc = some (trimStr v) := by
      simp [getChildText, hnc, hak]
    simp [predicateStringForElement, childPredOf, hfp, hfc, hb, hct, htr]
  · intro raw hch hname hlk htrim
    simp [predicateStringForElement, hch, attrPredOf, hname, hlk, htrim]
  · unfold predicateStringForElement
    cases hch : childPredOf cfg tag el with
    | some p =>
      refine Or.inr (Or.inl ?_)
      unfold childPredOf at hch
      cases hfp : cfg.filterParent with
      | none => simp [hfp] at hch
      | some fp =>
        cases hfc : cfg.filterChild with
        | none => simp [hfp, hfc] at hch
        | some fc =>
          simp only [hfp, hfc] at hch
          by_cases hb : upperStr (bareTag tag) = fp
          · simp only [hb, if_pos rfl] at hch
            cases hct : getChildText el fc with
            | none => simp [hct] at hch
            | some cv =>
              simp only [hct] at hch
              by_cases hcv : cv = ""
              · simp [hcv] at hch
              · simp [hcv] at hch
                exact ⟨fc, cv, rfl, hct, by simp [hch]⟩
          · simp [hb] at hch
    | none =>
      unfold attrPredOf
      by_cases hname : cfg.attrName = ""
      · simp [hname]
      · simp only [hname, if_neg hname]
        cases hlk : lookupAttr el ("@_" ++ cfg.attrName) with
        | none => simp
        | some raw =>
          by_cases htrim : (trimStr raw).length > 0
          · exact Or.inr (Or.inr ⟨raw, rfl, by simp [htrim]⟩)
          · simp only [htrim, if_neg htrim]
            exact Or.inl rfl

/-- Witness for C7_predicate_first_rule_wins: the child-text rule fires on
the example IMAGE node from its child element, and on the counterexample
node from the namespace-prefixed attribute. -/
theorem C7_predicate_first_rule_wins_witness :
    predicateStringForElement defaultCfg "d:IMAGE" exImageNode = "[@ImageCategoryType='Front']" ∧
    predicateStringForElement defaultCfg "d:IMAGE" cexC7Node = "[@ImageCategoryType='Rear']" := by
  constructor
  · exact (C7_predicate_first_rule_wins defaultCfg "d:IMAGE" exImageNode).1 "IMAGE"
      "ImageCategoryType" "Front" rfl rfl (by decide) (by decide) (by decide)
  · have h := (C7_predicate_first_rule_wins defaultCfg "d:IMAGE" cexC7Node).2.1 "IMAGE"
      "ImageCategoryType" "Rear"
      [("@_ValuationUseType", "X"), ("@_d:ImageCategoryType", "Rear")] cexC7Children
      rfl rfl (by decide) rfl (by decide) (by decide)
    exact h.trans (by decide)

/-- C9: the engine is a pure function of the document and configuration;
each run starts from the empty counter and cache state, so two runs on the
same input produce the same output line sequence. -/
theorem C9_determinism (cfg : Config) (doc : JVal) (out1 out2 : List String)
    (h1 : out1 = runEngine cfg doc) (h2 : out2 = runEngine cfg doc) :
    out1 = out2 ∧ runEngine cfg doc = (traverseNode cfg doc [] initState).results :=
  ⟨h1.trans h2.symm, rfl⟩

/-- Witness for C9_determinism at a concrete document. -/
theorem C9_determinism_witness :
    runEngine defaultCfg exDocPlain = runEngine defaultCfg exDocPlain ∧
    runEngine defaultCfg exDocPlain = (traverseNode defaultCfg exDocPlain [] initState).results :=
  C9_determinism defaultCfg exDocPlain _ _ rfl rfl

/- Ordered map lemmas. -/

theorem mapGet_mapSet_self (m : List (String × Nat)) (k : String) (v : Nat) :
    mapGet (mapSet m k v) k = some v := by
  induction m with
  | nil => simp [mapSet, mapGet]
  | cons p rest ih =>
    by_cases h : p.1 = k
    · simp [mapSet, mapGet, h]
    · simp [mapSet, mapGet, h, ih]

theorem mapGet_mapSet_ne (m : List (String × Nat)) (k k2 : String) (v : Nat) (h : k2 ≠ k) :
    mapGet (mapSet m k v) k2 = mapGet m k2 := by
  have hne : k ≠ k2 := fun hh => h hh.symm
  induction m with
  | nil => simp [mapSet, mapGet, hne]
  | cons p rest ih =>
    by_cases hp : p.1 = k
    · subst hp
      simp [mapSet, mapGet, hne]
    · by_cases hp2 : p.1 = k2
      · simp [mapSet, mapGet, hp, hp2, h]
      · simp [mapSet, mapGet, hp, hp2, ih]

theorem mapGetD_mapSet_self (m : List (String × Nat)) (k : String) (v : Nat) :
    mapGetD (mapSet m k v) k = v := by
  simp [mapGetD, mapGet_mapSet_self]

theorem mapGetD_mapSet_ne (m : List (String × Nat)) (k k2 : String) (v : Nat) (h : k2 ≠ k) :
    mapGetD (mapSet m k v) k2 = mapGetD m k2 := by
  simp [mapGetD, mapGet_mapSet_ne m k k2 v h]

/-- Log of the indices produced by consecutive Signature Indexer calls, one
per visited element instance. -/
def assignRun : List String → List (String × Nat) → List Nat
  | [], _ => []
  | s :: rest, m =>
    let a := assignIndex s m
    a.1 :: assignRun rest a.2

theorem assignRun_length (qs : List String) (m : List (String × Nat)) :
    (assignRun qs m).length = qs.length := by
  induction qs generalizing m with
  | nil => rfl
  | cons q rest ih => simp [assignRun, ih]

theorem assignRun_get (qs : List String) (m : List (String × Nat)) (i : Nat) (s : String)
    (h : qs[i]? = some s) :
    (assignRun qs m)[i]? = some (mapGetD m s + (qs.take i).count s + 1) := by
  induction qs generalizing m i with
  | nil => simp at h
  | cons q rest ih =>
    cases i with
    | zero =>
      simp only [List.getElem?_cons_zero, Option.some.injEq] at h
      subst h
      simp [assignRun, assignIndex]
    | succ i =>
      simp only [List.getElem?_cons_succ] at h
      have hrec := ih (mapSet m q (mapGetD m q + 1)) i h
      simp only [assignRun, assignIndex, List.getElem?_cons_succ]
      rw [hrec]
      refine congrArg some ?_
      rw [List.take_succ_cons]
      by_cases hqs : s = q
      · subst hqs
        rw [List.count_cons_self, mapGetD_mapSet_self]
        omega
      · rw [List.count_cons_of_ne hqs, mapGetD_mapSet_ne m q s _ hqs]

/-- Exactly one Signature Indexer call happens per visited instance: every
visit updates the counter table by the assignIndex step at the signature of
the visited element, a value independent of the counter state, and the
frame records the index that step returns. -/
theorem visitEmit_assign (cfg : Config) (tag : String) (el : JVal) (idx : Nat)
    (anc : List Frame) (st : TState) :
    (visitEmit cfg tag el idx anc st).2.assignedIndex
        = (assignIndex (sigOf cfg tag el) st.signatureCounts).1 ∧
    (visitEmit cfg tag el idx anc st).1.signatureCounts
        = (assignIndex (sigOf cfg tag el) st.signatureCounts).2 := by
  constructor <;> (unfold visitEmit; dsimp only; split <;> simp [bumpLeaves_sig])

/-- C2: indices per signature are exactly 1, 2, 3, and so on in call order.
Starting from the empty counter table, the call list produces one index per
call, and the i-th call returns one more than the number of earlier calls
carrying the same signature; so the n-th occurrence of a signature receives
index n, with index 1 on the first occurrence.  The signature passed to the
indexer by a visit is sigOf applied to configuration, tag and element value
alone, so the index, derived afterwards from the counter state, never
enters the signature string. -/
theorem C2_signature_index_monotonic (qs : List String) (i : Nat) (s : String)
    (h : qs[i]? = some s) :
    (assignRun qs []).length = qs.length ∧
    (assignRun qs [])[i]? = some ((qs.take i).count s + 1) ∧
    (∀ (cfg : Config) (tag : String) (el : JVal) (idx : Nat) (anc : List Frame) (st : TState),
      (visitEmit cfg tag el idx anc st).2.assignedIndex
          = (assignIndex (sigOf cfg tag el) st.signatureCounts).1 ∧
      (visitEmit cfg tag el idx anc st).1.signatureCounts
          = (assignIndex (sigOf cfg tag el) st.signatureCounts).2) := by
  refine ⟨assignRun_length qs [], ?_, fun cfg tag el idx anc st => visitEmit_assign cfg tag el idx anc st⟩
  have hg := assignRun_get qs [] i s h
  simpa [mapGetD, mapGet] using hg

/-- Witness for C2_signature_index_monotonic: the third call, carrying the
same signature as the first, receives index 2. -/
theorem C2_signature_index_monotonic_witness :
    (assignRun ["d:IMAGE", "d:A", "d:IMAGE"] []).length = 3 ∧
    (assignRun ["d:IMAGE", "d:A", "d:IMAGE"] [])[2]? = some 2 := by
  have h := C2_signature_index_monotonic ["d:IMAGE", "d:A", "d:IMAGE"] 2 "d:IMAGE" (by decide)
  exact ⟨h.1.trans (by decide), h.2.1.trans (by decide)⟩

/- Composite allocation run. -/

/-- Log of the numbers produced by consecutive composite allocation calls,
each query a pair of composite key and composite instance key. -/
def allocRun : List (String × String) → CMaps → List Nat
  | [], _ => []
  | q :: rest, m =>
    let r := allocComposite q.1 q.2 m
    r.1 :: allocRun rest r.2

/-- Key consistency: the composite key is a function of the instance key.
The queries the engine generates satisfy this whenever instance-key strings
are read back unambiguously, the instance key being the composite key
extended with the per-frame assigned indices. -/
def KeyConsistent (qs : List (String × String)) : Prop :=
  ∀ p q, p ∈ qs → q ∈ qs → p.2 = q.2 → p.1 = q.1

/-- Number of distinct instance keys among the key-k entries of a query
prefix. -/
def dCount (qs : List (String × String)) (k : String) : Nat :=
  ((qs.filter (fun q => q.1 == k)).map Prod.snd).toFinset.card

theorem allocComposite_cache_self (key ik : String) (m : CMaps) :
    mapGet (allocComposite key ik m).2.instToNumber ik = some (allocComposite key ik m).1 := by
  unfold allocComposite
  cases h : mapGet m.instToNumber ik with
  | some n => simp [h]
  | none => simp [h, mapGet_mapSet_self]

theorem allocComposite_cache_mono (key ik ik2 : String) (m : CMaps) (n : Nat)
    (h : mapGet m.instToNumber ik2 = some n) :
    mapGet (allocComposite key ik m).2.instToNumber ik2 = some n := by
  unfold allocComposite
  cases hc : mapGet m.instToNumber ik with
  | some n2 => simpa [hc] using h
  | none =>
    have hne : ik2 ≠ ik := by
      intro he
      rw [he, hc] at h
      exact Option.noConfusion h
    simpa [hc, mapGet_mapSet_ne _ _ _ _ hne] using h

theorem allocRun_cached (qs : List (String × String)) :
    ∀ (m : CMaps) (ik : String) (n : Nat), mapGet m.instToNumber ik = some n →
    ∀ (i : Nat) (p : String × String), qs[i]? = some p → p.2 = ik →
      (allocRun qs m)[i]? = some n := by
  induction qs with
  | nil => intro m ik n hm i p h; simp at h
  | cons q rest ih =>
    intro m ik n hm i p h hik
    cases i with
    | zero =>
      simp only [List.getElem?_cons_zero, Option.some.injEq] at h
      subst h
      rw [← hik] at hm
      simp [allocRun, allocComposite, hm]
    | succ i =>
      simp only [List.getElem?_cons_succ] at h
      simp only [allocRun, List.getElem?_cons_succ]
      exact ih _ ik n (allocComposite_cache_mono q.1 q.2 ik m n hm) i p h hik

theorem allocRun_stable_le (qs : List (String × String)) (m : CMaps) (i j : Nat)
    (pi pj : String × String) (hij : i ≤ j) (hi : qs[i]? = some pi) (hj : qs[j]? = some pj)
    (hik : pi.2 = pj.2) :
    (allocRun qs m)[i]? = (allocRun qs m)[j]? := by
  induction qs generalizing m i j with
  | nil => simp at hi
  | cons q rest ih =>
    cases i with
    | zero =>
      simp only [List.getElem?_cons_zero, Option.some.injEq] at hi
      subst hi
      cases j with
      | zero => rfl
      | succ j =>
        simp only [List.getElem?_cons_succ] at hj
        simp only [allocRun, List.getElem?_cons_zero, List.getElem?_cons_succ]
        exact (allocRun_cached rest (allocComposite q.1 q.2 m).2 q.2 (allocComposite q.1 q.2 m).1
          (allocComposite_cache_self q.1 q.2 m) j pj hj hik.symm).symm
    | succ i =>
      cases j with
      | zero => exact absurd hij (by omega)
      | succ j =>
        simp only [List.getElem?_cons_succ] at hi hj
        simp only [allocRun, List.getElem?_cons_succ]
        exact ih _ i j (by omega) hi hj

/-- Counter and cache invariant over a processed query prefix: every key
counter equals the number of distinct instances seen for that key, and the
cache holds exactly the already seen instance keys. -/
def CInv (pre : List (String × String)) (m : CMaps) : Prop :=
  (∀ K, mapGetD m.keyCounters K = dCount pre K) ∧
  (∀ ik, mapGet m.instToNumber ik = none ↔ ik ∉ pre.map Prod.snd)

theorem dCount_append_other (pre : List (String × String)) (q : String × String) (K : String)
    (h : q.1 ≠ K) : dCount (pre ++ [q]) K = dCount pre K := by
  unfold dCount
  rw [List.filter_append]
  have : List.filter (fun r => r.1 == K) [q] = [] := by simp [h]
  rw [this, List.append_nil]

theorem dCount_append_same (pre : List (String × String)) (q : String × String) (K : String)
    (h : q.1 = K) :
    dCount (pre ++ [q]) K
      = if q.2 ∈ (pre.filter (fun r => r.1 == K)).map Prod.snd
        then dCount pre K else dCount pre K + 1 := by
  unfold dCount
  rw [List.filter_append]
  have hq : List.filter (fun r => r.1 == K) [q] = [q] := by simp [h]
  rw [hq, List.map_append, List.toFinset_append]
  simp only [List.map_cons, List.map_nil, List.toFinset_cons, List.toFinset_nil]
  rw [Finset.union_insert, Finset.union_empty]
  by_cases hm : q.2 ∈ (pre.filter (fun r => r.1 == K)).map Prod.snd
  · rw [if_pos hm, Finset.insert_eq_self.mpr (List.mem_toFinset.mpr hm)]
  · rw [if_neg hm, Finset.card_insert_of_not_mem (fun hc => hm (List.mem_toFinset.mp hc))]

theorem KeyConsistent_of_front (pre : List (String × String)) (q : String × String)
    (rest : List (String × String)) (h : KeyConsistent (pre ++ q :: rest)) :
    KeyConsistent (pre ++ [q]) := by
  intro a b ha hb hab
  refine h a b ?_ ?_ hab
  · rcases List.mem_append.mp ha with h1 | h1
    · exact List.mem_append.mpr (Or.inl h1)
    · simp only [List.mem_singleton] at h1
      subst h1
      exact List.mem_append.mpr (Or.inr (List.mem_cons_self _ _))
  · rcases List.mem_append.mp hb with h1 | h1
    · exact List.mem_append.mpr (Or.inl h1)
    · simp only [List.mem_singleton] at h1
      subst h1
      exact List.mem_append.mpr (Or.inr (List.mem_cons_self _ _))

theorem CInv_step (pre : List (String × String)) (q : String × String) (m : CMaps)
    (hcons : KeyConsistent (pre ++ [q])) (hinv : CInv pre m) :
    CInv (pre ++ [q]) (allocComposite q.1 q.2 m).2 := by
  obtain ⟨hcnt, hcache⟩ := hinv
  unfold allocComposite
  cases hc : mapGet m.instToNumber q.2 with
  | some n =>
    dsimp only
    constructor
    · intro K
      by_cases hK : q.1 = K
      · have hmem : q.2 ∈ pre.map Prod.snd := by
          by_contra hnm
          rw [(hcache q.2).mpr hnm] at hc
          exact Option.noConfusion hc
        obtain ⟨p, hp, hps⟩ := List.mem_map.mp hmem
        have hpk : p.1 = q.1 :=
          hcons p q (List.mem_append.mpr (Or.inl hp))
            (List.mem_append.mpr (Or.inr (List.mem_singleton.mpr rfl))) hps
        have hmem2 : q.2 ∈ (pre.filter (fun r => r.1 == K)).map Prod.snd := by
          refine List.mem_map.mpr ⟨p, List.mem_filter.mpr ⟨hp, ?_⟩, hps⟩
          simp [hpk, hK]
        rw [dCount_append_same pre q K hK, if_pos hmem2]
        exact hcnt K
      · rw [dCount_append_other pre q K hK]
        exact hcnt K
    · intro ik
      rw [List.map_append]
      simp only [List.map_cons, List.map_nil, List.mem_append, List.mem_singleton, not_or]
      constructor
      · intro h0
        refine ⟨(hcache ik).mp h0, ?_⟩
        intro he
        rw [he, hc] at h0
        exact Option.noConfusion h0
      · intro hpair
        exact (hcache ik).mpr hpair.1
  | none =>
    dsimp only
    have hfresh : q.2 ∉ pre.map Prod.snd := (hcache q.2).mp hc
    constructor
    · intro K
      by_cases hK : q.1 = K
      · subst hK
        rw [mapGetD_mapSet_self]
        have hnm : q.2 ∉ (pre.filter (fun r => r.1 == q.1)).map Prod.snd := by
          intro hm2
          obtain ⟨p, hp, hps⟩ := List.mem_map.mp hm2
          exact hfresh (List.mem_map.mpr ⟨p, (List.mem_filter.mp hp).1, hps⟩)
        rw [dCount_append_same pre q q.1 rfl, if_neg hnm, hcnt q.1]
      · rw [mapGetD_mapSet_ne _ _ _ _ (fun he => hK he.symm)]
        rw [dCount_append_other pre q K hK]
        exact hcnt K
    · intro ik
      rw [List.map_append]
      simp only [List.map_cons, List.map_nil, List.mem_append, List.mem_singleton, not_or]
      by_cases hik : ik = q.2
      · subst hik
        rw [mapGet_mapSet_self]
        constructor
        · intro h0; exact Option.noConfusion h0
        · intro hpair; exact absurd rfl hpair.2
      · rw [mapGet_mapSet_ne _ _ _ _ hik]
        constructor
        · intro h0
          exact ⟨(hcache ik).mp h0, hik⟩
        · intro hpair
          exact (hcache ik).mpr hpair.1

theorem allocRun_monotone (qs : List (String × String)) :
    ∀ (pre : List (String × String)) (m : CMaps),
    KeyConsistent (pre ++ qs) → CInv pre m →
    ∀ (i : Nat) (k ik : String), qs[i]? = some (k, ik) →
    ik ∉ (pre ++ qs.take i).map Prod.snd →
    (allocRun qs m)[i]? = some (dCount (pre ++ qs.take i) k + 1) := by
  induction qs with
  | nil => intro pre m _ _ i k ik h; simp at h
  | cons q rest ih =>
    intro pre m hcons hinv i k ik h hfresh
    cases i with
    | zero =>
      simp only [List.getElem?_cons_zero, Option.some.injEq] at h
      subst h
      rw [List.take_zero, List.append_nil] at hfresh ⊢
      have hc : mapGet m.instToNumber ik = none := (hinv.2 ik).mpr hfresh
      simp [allocRun, allocComposite, hc, mapGetD, hinv.1 k]
      have := hinv.1 k
      simp [mapGetD] at this
      omega
    | succ i =>
      simp only [List.getElem?_cons_succ] at h
      simp only [allocRun, List.getElem?_cons_succ]
      have hlist : pre ++ (q :: rest).take (i + 1) = (pre ++ [q]) ++ rest.take i := by
        rw [List.take_succ_cons, List.append_assoc, List.singleton_append]
      have hcons2 : KeyConsistent ((pre ++ [q]) ++ rest) := by
        rw [List.append_assoc, List.singleton_append]
        exact hcons
      have hstep := CInv_step pre q m (KeyConsistent_of_front pre q rest hcons) hinv
      have hres := ih (pre ++ [q]) (allocComposite q.1 q.2 m).2 hcons2 hstep i k ik h
        (by rw [← hlist]; exact hfresh)
      rw [hlist]
      exact hres

/-- C1: composite numbering is idempotent per physical instance and
strictly increasing per composite key.  Over any query run from the empty
tables, two queries carrying the same instance key receive the same number;
and under key consistency, the query at which an instance key first appears
receives one more than the number of distinct instances previously seen for
its composite key, so the instances of one key are numbered 1, 2, 3 and so
on in first-query order. -/
theorem C1_composite_number_stability (qs : List (String × String)) :
    (∀ (i j : Nat) (pi pj : String × String), qs[i]? = some pi → qs[j]? = some pj →
      pi.2 = pj.2 → (allocRun qs ⟨[], []⟩)[i]? = (allocRun qs ⟨[], []⟩)[j]?) ∧
    (KeyConsistent qs →
      ∀ (i : Nat) (k ik : String), qs[i]? = some (k, ik) →
      ik ∉ (qs.take i).map Prod.snd →
      (allocRun qs ⟨[], []⟩)[i]? = some (dCount (qs.take i) k + 1)) := by
  constructor
  · intro i j pi pj hi hj hik
    rcases Nat.le_total i j with hle | hle
    · exact allocRun_stable_le qs ⟨[], []⟩ i j pi pj hle hi hj hik
    · exact (allocRun_stable_le qs ⟨[], []⟩ j i pj pi hle hj hi hik.symm).symm
  · intro hcons i k ik h hfresh
    have h0 : CInv [] ⟨[], []⟩ := by
      constructor
      · intro K
        simp [mapGetD, mapGet, dCount]
      · intro ik0
        simp [mapGet]
    have hres := allocRun_monotone qs [] ⟨[], []⟩ (by simpa using hcons) h0 i k ik h
      (by simpa using hfresh)
    simpa using hres

/-- Witness for C1_composite_number_stability: with one composite key K, the
repeat query of instance K::a receives the number of its first query, and
the first query of instance K::b receives number 2. -/
theorem C1_composite_number_stability_witness :
    ((allocRun [("K", "K::a"), ("K", "K::b"), ("K", "K::a")] ⟨[], []⟩)[0]?
        = (allocRun [("K", "K::a"), ("K", "K::b"), ("K", "K::a")] ⟨[], []⟩)[2]?) ∧
    (allocRun [("K", "K::a"), ("K", "K::b"), ("K", "K::a")] ⟨[], []⟩)[1]?
        = some (dCount ([("K", "K::a"), ("K", "K::b"), ("K", "K::a")].take 1) "K" + 1) := by
  have h := C1_composite_number_stability [("K", "K::a"), ("K", "K::b"), ("K", "K::a")]
  refine ⟨h.1 0 2 ("K", "K::a") ("K", "K::a") (by decide) (by decide) rfl, ?_⟩
  refine h.2 ?_ 1 "K" "K::b" (by decide) (by decide)
  intro p q hp hq _
  fin_cases hp <;> fin_cases hq <;> rfl

/- Spec-side emission count: the number of leaf elements with non-empty
trimmed text and at least one included ancestor-or-self, computed over the
tree in the traversal order. -/

mutual
def emitCountNode (cfg : Config) (node : JVal) (inc : Bool) : Nat :=
  match node with
  | .str _ => 0
  | .obj _ _ children => emitCountChildren cfg children inc
termination_by structural node

def emitCountChildren (cfg : Config) (cs : JChildren) (inc : Bool) : Nat :=
  match cs with
  | .nil => 0
  | .cons tag _ elems rest => emitCountElems cfg tag elems inc + emitCountChildren cfg rest inc
termination_by structural cs

def emitCountElems (cfg : Config) (tag : String) (elems : JList) (inc : Bool) : Nat :=
  match elems with
  | .nil => 0
  | .cons el rest =>
    (let inc2 := inc || includedTag cfg tag
     let li := isLeafNode el
     (if li.leaf = true ∧ li.text.length > 0 ∧ inc2 = true then 1 else 0) +
       (if li.leaf then 0 else emitCountNode cfg el inc2)) +
      emitCountElems cfg tag rest inc
termination_by structural elems
end

/-- Emission count contributed by a single visited element. -/
def emitCountVisit (cfg : Config) (tag : String) (el : JVal) (inc : Bool) : Nat :=
  let inc2 := inc || includedTag cfg tag
  let li := isLeafNode el
  (if li.leaf = true ∧ li.text.length > 0 ∧ inc2 = true then 1 else 0) +
    (if li.leaf then 0 else emitCountNode cfg el inc2)

theorem emitCountElems_cons (cfg : Config) (tag : String) (el : JVal) (rest : JList)
    (inc : Bool) :
    emitCountElems cfg tag (.cons el rest) inc
      = emitCountVisit cfg tag el inc + emitCountElems cfg tag rest inc := rfl

/-- Presence of an included tag in an ancestor chain. -/
def ancAny (cfg : Config) (anc : List Frame) : Bool :=
  anc.any (fun f => includedTag cfg f.tag)

theorem enumFrom_filter_eq_nil (q : Frame → Bool) (l : List Frame) : ∀ (n : Nat),
    ((List.enumFrom n l).filter (fun p => q p.2) = []) ↔ ∀ f ∈ l, q f = false := by
  induction l with
  | nil => intro n; simp
  | cons f fs ih =>
    intro n
    simp only [List.enumFrom, List.filter_cons]
    cases hq : q f with
    | true => simp [hq]
    | false => simp [hq, ih (n + 1)]

theorem includedOf_eq_nil (cfg : Config) (l : List Frame) :
    includedOf cfg l = [] ↔ ∀ f ∈ l, includedTag cfg f.tag = false := by
  unfold includedOf
  exact enumFrom_filter_eq_nil (fun f => includedTag cfg f.tag) l 0

theorem includedOf_length_pos (cfg : Config) (l : List Frame) :
    0 < (includedOf cfg l).length ↔ l.any (fun f => includedTag cfg f.tag) = true := by
  constructor
  · intro hpos
    by_contra hany
    have hall : ∀ f ∈ l, includedTag cfg f.tag = false := by
      intro f hf
      by_contra hft
      simp only [Bool.not_eq_false] at hft
      exact hany (List.any_eq_true.mpr ⟨f, hf, hft⟩)
    rw [(includedOf_eq_nil cfg l).mpr hall] at hpos
    simp at hpos
  · intro hany
    obtain ⟨f, hf, hq⟩ := List.any_eq_true.mp hany
    rw [List.length_pos]
    intro hnil
    have := (includedOf_eq_nil cfg l).mp hnil f hf
    rw [this] at hq
    exact Bool.noConfusion hq

theorem ancAny_append_one (cfg : Config) (anc : List Frame) (fr : Frame) :
    ancAny cfg (anc ++ [fr]) = (ancAny cfg anc || includedTag cfg fr.tag) := by
  simp [ancAny, List.any_append]

/-- The frame a visit produces, in closed form. -/
theorem visitEmit_frame (cfg : Config) (tag : String) (el : JVal) (idx : Nat)
    (anc : List Frame) (st : TState) :
    (visitEmit cfg tag el idx anc st).2
      = ⟨tag, el, idx, (assignIndex (sigOf cfg tag el) st.signatureCounts).1⟩ := by
  unfold visitEmit
  dsimp only
  split <;> rfl

/-- The output line count a single visit contributes: one when the element
is a leaf with non-empty trimmed text and an included ancestor-or-self. -/
theorem visitEmit_results_len (cfg : Config) (tag : String) (el : JVal) (idx : Nat)
    (anc : List Frame) (st : TState) :
    (visitEmit cfg tag el idx anc st).1.results.length
      = st.results.length +
        (if (isLeafNode el).leaf = true ∧ (isLeafNode el).text.length > 0 ∧
            (ancAny cfg anc || includedTag cfg tag) = true then 1 else 0) := by
  have hbridge : ∀ (fr : Frame), fr.tag = tag →
      (0 < (includedOf cfg (anc ++ [fr])).length
        ↔ (ancAny cfg anc || includedTag cfg tag) = true) := by
    intro fr hft
    rw [includedOf_length_pos]
    have : (anc ++ [fr]).any (fun f => includedTag cfg f.tag) = ancAny cfg (anc ++ [fr]) := rfl
    rw [this, ancAny_append_one, hft]
  unfold visitEmit
  dsimp only
  split
  case isTrue hC =>
    have hcond : (isLeafNode el).leaf = true ∧ (isLeafNode el).text.length > 0 ∧
        (ancAny cfg anc || includedTag cfg tag) = true :=
      ⟨hC.1, hC.2.1, (hbridge _ rfl).mp hC.2.2⟩
    rw [if_pos hcond]
    simp [bumpLeaves_results]
  case isFalse hC =>
    have hcond : ¬((isLeafNode el).leaf = true ∧ (isLeafNode el).text.length > 0 ∧
        (ancAny cfg anc || includedTag cfg tag) = true) := by
      intro hx
      exact hC ⟨hx.1, hx.2.1, (hbridge _ rfl).mpr hx.2.2⟩
    rw [if_neg hcond]
    simp [bumpLeaves_results]

/- Output line count over the full traversal. -/

mutual
theorem count_traverseNode (cfg : Config) (node : JVal) (anc : List Frame) (st : TState) :
    (traverseNode cfg node anc st).results.length
      = st.results.length + emitCountNode cfg node (ancAny cfg anc) := by
  cases node with
  | str s => simp [traverseNode, emitCountNode]
  | obj a t cs =>
    simp only [traverseNode, emitCountNode]
    exact count_goChildren cfg cs anc st
termination_by (sizeOf node, 0)

theorem count_goChildren (cfg : Config) (cs : JChildren) (anc : List Frame) (st : TState) :
    (goChildren cfg cs anc st).results.length
      = st.results.length + emitCountChildren cfg cs (ancAny cfg anc) := by
  cases cs with
  | nil => simp [goChildren, emitCountChildren]
  | cons tag b elems rest =>
    simp only [goChildren, emitCountChildren]
    rw [count_goChildren cfg rest anc (goElems cfg tag elems 0 anc st)]
    rw [count_goElems cfg tag elems 0 anc st]
    omega
termination_by (sizeOf cs, 0)

theorem count_goElems (cfg : Config) (tag : String) (elems : JList) (idx : Nat)
    (anc : List Frame) (st : TState) :
    (goElems cfg tag elems idx anc st).results.length
      = st.results.length + emitCountElems cfg tag elems (ancAny cfg anc) := by
  cases elems with
  | nil => simp [goElems, emitCountElems]
  | cons el rest =>
    rw [goElems_cons, emitCountElems_cons]
    rw [count_goElems cfg tag rest (idx + 1) anc (visitElement cfg tag el idx anc st)]
    rw [count_visitElement cfg tag el idx anc st]
    omega
termination_by (sizeOf elems, 0)

theorem count_visitElement (cfg : Config) (tag : String) (el : JVal) (idx : Nat)
    (anc : List Frame) (st : TState) :
    (visitElement cfg tag el idx anc st).results.length
      = st.results.length + emitCountVisit cfg tag el (ancAny cfg anc) := by
  unfold visitElement
  dsimp only
  by_cases hl : (isLeafNode el).leaf
  · rw [if_pos hl, visitEmit_results_len]
    unfold emitCountVisit
    dsimp only
    rw [if_pos hl]
    omega
  · rw [if_neg hl]
    rw [count_traverseNode cfg el (anc ++ [(visitEmit cfg tag el idx anc st).2])
      (visitEmit cfg tag el idx anc st).1]
    rw [visitEmit_results_len]
    have hb : (isLeafNode el).leaf = false := by
      simpa using hl
    have htag : (visitEmit cfg tag el idx anc st).2.tag = tag := by
      rw [visitEmit_frame]
    rw [ancAny_append_one, htag]
    unfold emitCountVisit
    dsimp only
    rw [if_neg hl, if_neg (by simp [hb])]
    simp [hb]
termination_by (sizeOf el, 1)
end

/-- C6: the number of emitted output lines equals the number of leaf
elements with non-empty trimmed text and at least one included
ancestor-or-self; leaves failing either test produce no line. -/
theorem C6_emission_count (cfg : Config) (doc : JVal) :
    (runEngine cfg doc).length = emitCountNode cfg doc false := by
  unfold runEngine
  rw [count_traverseNode cfg doc [] initState]
  simp [initState, ancAny]

/- Shape of emitted xpath expressions. -/

/-- Shape of every emitted line: leaf text, separator, and an xpath that
begins with the grouped-parenthesis opener or with the descendant axis. -/
def GoodLine (l : String) : Prop :=
  ∃ t x, l = t ++ " : " ++ x ∧ ((∃ r, x = "(//" ++ r) ∨ (∃ r, x = "//" ++ r))

theorem starts_append (p a b : String) (h : ∃ r, a = p ++ r) : ∃ r, a ++ b = p ++ r := by
  obtain ⟨r, hr⟩ := h
  exact ⟨r ++ b, by rw [hr, String.append_assoc]⟩

theorem computeFallback_starts (cfg : Config) (incl : List (Nat × Frame)) (fr : Frame)
    (n : Nat) (lastInc : Nat × Frame) (m : CMaps) :
    (∃ r, (computeFallback cfg incl fr n lastInc m).1 = "(//" ++ r) ∨
    (∃ r, (computeFallback cfg incl fr n lastInc m).1 = "//" ++ r) := by
  unfold computeFallback
  cases hg : incl.findIdx? (fun p => isGroupAnchor cfg p) with
  | some ii =>
    cases hget : incl.get? ii with
    | none =>
      have hlt := (List.findIdx?_eq_some_iff_findIdx_eq.mp hg).1
      rw [List.get?_eq_none] at hget
      omega
    | some gAnc =>
      simp only [hget]
      left
      repeat first
        | exact ⟨_, rfl⟩
        | apply starts_append
  | none =>
    simp only [hg]
    right
    repeat first
      | exact ⟨_, rfl⟩
      | apply starts_append

theorem computeXPath_starts (cfg : Config) (incl : List (Nat × Frame)) (fr : Frame)
    (n : Nat) (m : CMaps) (hne : incl ≠ []) :
    (∃ r, (computeXPath cfg incl fr n m).1 = "(//" ++ r) ∨
    (∃ r, (computeXPath cfg incl fr n m).1 = "//" ++ r) := by
  unfold computeXPath
  cases hlast : incl.getLast? with
  | none => exact absurd (List.getLast?_eq_none_iff.mp hlast) hne
  | some lastInc =>
    dsimp only
    cases hg : incl.findIdx? (fun p => isGroupAnchor cfg p) with
    | some ii =>
      dsimp only
      by_cases hle : (incl.findIdx? (fun p => isStartAnchor cfg p)).getD 0 ≤ ii
      · rw [if_pos hle]
        left
        repeat first
          | exact ⟨_, rfl⟩
          | apply starts_append
      · rw [if_neg hle]
        exact computeFallback_starts cfg incl fr n lastInc m
    | none =>
      dsimp only
      exact computeFallback_starts cfg incl fr n lastInc m

/-- Either a visit leaves the collected lines unchanged, or it appends one
line built from the leaf text and an xpath of the emitted shape. -/
theorem visitEmit_results_shape (cfg : Config) (tag : String) (el : JVal) (idx : Nat)
    (anc : List Frame) (st : TState) :
    (visitEmit cfg tag el idx anc st).1.results = st.results ∨
    ∃ x, (visitEmit cfg tag el idx anc st).1.results
        = st.results ++ [(isLeafNode el).text ++ " : " ++ x] ∧
      ((∃ r, x = "(//" ++ r) ∨ (∃ r, x = "//" ++ r)) := by
  unfold visitEmit
  dsimp only
  split
  case isTrue hC =>
    dsimp only
    simp only [bumpLeaves_results]
    right
    refine ⟨_, rfl, ?_⟩
    apply computeXPath_starts
    intro hnil
    have hlen := hC.2.2
    rw [hnil] at hlen
    simp at hlen
  case isFalse hC =>
    left
    simp only [bumpLeaves_results]

mutual
theorem lines_traverseNode (cfg : Config) (node : JVal) (anc : List Frame) (st : TState) :
    ∀ l ∈ (traverseNode cfg node anc st).results, l ∈ st.results ∨ GoodLine l := by
  cases node with
  | str s =>
    intro l hl
    exact Or.inl hl
  | obj a t cs =>
    exact lines_goChildren cfg cs anc st
termination_by (sizeOf node, 0)

theorem lines_goChildren (cfg : Config) (cs : JChildren) (anc : List Frame) (st : TState) :
    ∀ l ∈ (goChildren cfg cs anc st).results, l ∈ st.results ∨ GoodLine l := by
  cases cs with
  | nil =>
    intro l hl
    exact Or.inl hl
  | cons tag b elems rest =>
    intro l hl
    rcases lines_goChildren cfg rest anc (goElems cfg tag elems 0 anc st) l hl with h1 | h1
    · exact lines_goElems cfg tag elems 0 anc st l h1
    · exact Or.inr h1
termination_by (sizeOf cs, 0)

theorem lines_goElems (cfg : Config) (tag : String) (elems : JList) (idx : Nat)
    (anc : List Frame) (st : TState) :
    ∀ l ∈ (goElems cfg tag elems idx anc st).results, l ∈ st.results ∨ GoodLine l := by
  cases elems with
  | nil =>
    intro l hl
    exact Or.inl hl
  | cons el rest =>
    intro l hl
    rw [goElems_cons] at hl
    rcases lines_goElems cfg tag rest (idx + 1) anc (visitElement cfg tag el idx anc st) l hl
      with h1 | h1
    · exact lines_visitElement cfg tag el idx anc st l h1
    · exact Or.inr h1
termination_by (sizeOf elems, 0)

theorem lines_visitElement (cfg : Config) (tag : String) (el : JVal) (idx : Nat)
    (anc : List Frame) (st : TState) :
    ∀ l ∈ (visitElement cfg tag el idx anc st).results, l ∈ st.results ∨ GoodLine l := by
  intro l hl
  have hshape := visitEmit_results_shape cfg tag el idx anc st
  unfold visitElement at hl
  dsimp only at hl
  split at hl
  · rcases hshape with h | ⟨x, heq, hx⟩
    · rw [h] at hl
      exact Or.inl hl
    · rw [heq] at hl
      rcases List.mem_append.mp hl with h1 | h1
      · exact Or.inl h1
      · right
        simp only [List.mem_singleton] at h1
        exact ⟨_, x, h1, hx⟩
  · rcases lines_traverseNode cfg el (anc ++ [(visitEmit cfg tag el idx anc st).2])
      (visitEmit cfg tag el idx anc st).1 l hl with h1 | h1
    · rcases hshape with h | ⟨x, heq, hx⟩
      · rw [h] at h1
        exact Or.inl h1
      · rw [heq] at h1
        rcases List.mem_append.mp h1 with h2 | h2
        · exact Or.inl h2
        · right
          simp only [List.mem_singleton] at h2
          exact ⟨_, x, h2, hx⟩
    · exact Or.inr h1
termination_by (sizeOf el, 1)
end

/-- C10: every emitted xpath, on all three grouping tiers, is relative:
each output line splits as leaf text, the separator, and an xpath beginning
with the characters of a grouped opener or a double slash, never an
absolute single-slash-rooted path. -/
theorem C10_relative_addressing (cfg : Config) (doc : JVal) (l : String)
    (hl : l ∈ runEngine cfg doc) :
    ∃ t x, l = t ++ " : " ++ x ∧ ((∃ r, x = "(//" ++ r) ∨ (∃ r, x = "//" ++ r)) := by
  rcases lines_traverseNode cfg doc [] initState l hl with h | h
  · simp [initState] at h
  · exact h

/-- Witness for C10_relative_addressing at the plain-tier example line. -/
theorem C10_relative_addressing_witness :
    ∃ t x, "Front : //d:PROPERTY/d:IMAGE//d:Category" = t ++ " : " ++ x ∧
      ((∃ r, x = "(//" ++ r) ∨ (∃ r, x = "//" ++ r)) :=
  C10_relative_addressing defaultCfg exDocPlain _ (by decide)

/-- C4 amended: in the rendered composite slice, a frame whose bare tag is
the filter-parent type renders without any numeric index, every other frame
always carries its assigned index, including when that index equals one,
and the joined slice is wrapped in parentheses indexed by the composite
number, as the concrete run shows. -/
theorem C4_amended :
    (∀ (cfg : Config) (f : Frame) (fp : String), cfg.filterParent = some fp →
      (upperStr (bareTag f.tag) = fp →
        insideStep cfg f = buildStepWithIndex cfg f.tag f.node none false) ∧
      (upperStr (bareTag f.tag) ≠ fp →
        insideStep cfg f
          = cfg.nsShort ++ ":" ++ bareTag f.tag ++ predicateStringForElement cfg f.tag f.node
              ++ "[" ++ toString f.assignedIndex ++ "]")) ∧
    (∀ (cfg : Config) (tag : String) (node : JVal),
      buildStepWithIndex cfg tag node none false
        = cfg.nsShort ++ ":" ++ bareTag tag ++ predicateStringForElement cfg tag node) ∧
    runEngine defaultCfg exDocComposite =
      ["Front : (//d:PROPERTY[@ValuationUseType='Ext'][1]/d:IMAGE[@ImageCategoryType='Front'])[1]/d:ImageCategoryType",
       "Hi : (//d:PROPERTY[@ValuationUseType='Ext'][1]/d:IMAGE[@ImageCategoryType='Front'])[1]/d:Caption"] := by
  refine ⟨?_, ?_, by decide⟩
  · intro cfg f fp hfp
    constructor
    · intro hb
      simp [insideStep, hfp, hb]
    · intro hb
      simp [insideStep, hfp, hb, buildStepWithIndex]
  · intro cfg tag node
    rfl

/-- Witness for C4_amended: the group-anchor frame renders without an
index, the non-anchor PROPERTY frame with assigned index 1 renders with the
numeric index 1. -/
theorem C4_amended_witness :
    insideStep defaultCfg exImageFrame
        = buildStepWithIndex defaultCfg exImageFrame.tag exImageFrame.node none false ∧
    insideStep defaultCfg exPropFrame
        = "d" ++ ":" ++ bareTag exPropFrame.tag
            ++ predicateStringForElement defaultCfg exPropFrame.tag exPropFrame.node
            ++ "[" ++ toString exPropFrame.assignedIndex ++ "]" := by
  have h := C4_amended
  exact ⟨(h.1 defaultCfg exImageFrame "IMAGE" rfl).1 (by decide),
    (h.1 defaultCfg exPropFrame "IMAGE" rfl).2 (by decide)⟩

/-- C5 amended: the trailing leaf step never carries a numeric index and,
on the two grouped tiers, joins by the adjacency rule; on the plain tier it
always joins with a double slash, regardless of adjacency; and a leaf with
no included ancestor-or-self produces no line. -/
theorem C5_amended :
    (∀ (cfg : Config) (lastInc : Nat × Frame) (thisFr : Frame),
      upperStr (bareTag lastInc.2.tag) ≠ upperStr (bareTag thisFr.tag) →
      leafPartPlain cfg lastInc thisFr
        = "//" ++ buildStepWithIndex cfg thisFr.tag thisFr.node none false) ∧
    (∀ (cfg : Config) (lastInc : Nat × Frame) (thisFr : Frame) (k : Nat),
      upperStr (bareTag lastInc.2.tag) ≠ upperStr (bareTag thisFr.tag) →
      (k = lastInc.1 + 1 → leafPartAdj cfg lastInc thisFr k
          = "/" ++ buildStepWithIndex cfg thisFr.tag thisFr.node none false) ∧
      (k ≠ lastInc.1 + 1 → leafPartAdj cfg lastInc thisFr k
          = "//" ++ buildStepWithIndex cfg thisFr.tag thisFr.node none false)) ∧
    (∀ (cfg : Config) (tag : String) (node : JVal),
      buildStepWithIndex cfg tag node none false
        = cfg.nsShort ++ ":" ++ bareTag tag ++ predicateStringForElement cfg tag node) ∧
    (∀ (cfg : Config) (tag : String) (el : JVal) (idx : Nat) (anc : List Frame) (st : TState),
      (isLeafNode el).leaf = true →
      includedTag cfg tag = false → (∀ f ∈ anc, includedTag cfg f.tag = false) →
      (visitElement cfg tag el idx anc st).results = st.results) := by
  refine ⟨?_, ?_, fun cfg tag node => rfl, ?_⟩
  · intro cfg lastInc thisFr h
    simp [leafPartPlain, h]
  · intro cfg lastInc thisFr k h
    constructor <;> intro hk <;> simp [leafPartAdj, h, hk]
  · intro cfg tag el idx anc st hleaf hnotinc hanc
    unfold visitElement
    dsimp only
    rw [if_pos hleaf]
    unfold visitEmit
    dsimp only
    have hnil : includedOf cfg
        (anc ++ [⟨tag, el, idx, (assignIndex (sigOf cfg tag el) st.signatureCounts).1⟩]) = [] := by
      rw [includedOf_eq_nil]
      intro f hf
      rcases List.mem_append.mp hf with h | h
      · exact hanc f h
      · simp only [List.mem_singleton] at h
        subst h
        exact hnotinc
    have hcond : ¬((isLeafNode el).leaf = true ∧ (isLeafNode el).text.length > 0 ∧
        0 < (includedOf cfg
          (anc ++ [⟨tag, el, idx, (assignIndex (sigOf cfg tag el) st.signatureCounts).1⟩])).length) := by
      intro hx
      rw [hnil] at hx
      simp at hx
    rw [if_neg hcond]
    simp [bumpLeaves_results]

/-- Witness for C5_amended: the plain tier joins an adjacent leaf with a
double slash, and a leaf under no included ancestor emits nothing. -/
theorem C5_amended_witness :
    leafPartPlain defaultCfg (1, exPlainImageFrame) exPlainLeafFrame
        = "//" ++ buildStepWithIndex defaultCfg exPlainLeafFrame.tag exPlainLeafFrame.node
            none false ∧
    (visitElement defaultCfg "d:Other" (.str "x") 0 [] initState).results = initState.results := by
  have h := C5_amended
  refine ⟨h.1 defaultCfg (1, exPlainImageFrame) exPlainLeafFrame (by decide), ?_⟩
  refine h.2.2.2 defaultCfg "d:Other" (.str "x") 0 [] initState (by decide) (by decide) ?_
  intro f hf
  simp at hf

/- An XPath 1.0 evaluator for the expression shapes the Literal Formatter
produces.  Modelled from the spec: a standard XPath 1.0 evaluator applied
to a string literal reads a quote-delimited run with no in-literal
escaping, and the concat function concatenates the values of its
comma-separated literal arguments. -/

/-- Read one XPath string literal: an opening quote, the content up to the
next identical quote, and the closing quote; returns content and remaining
input. -/
def parseLit : List Char → Option (List Char × List Char)
  | [] => none
  | q :: rest =>
    if q = '\'' ∨ q = '"' then
      match rest.dropWhile (fun c => c != q) with
      | [] => none
      | _ :: tail => some (rest.takeWhile (fun c => c != q), tail)
    else none

/-- Read a non-empty comma-separated sequence of string literals, returning
their contents.  The fuel argument bounds the recursion depth. -/
def parseArgsF : Nat → List Char → Option (List (List Char))
  | 0, _ => none
  | fuel + 1, cs =>
    match parseLit cs with
    | none => none
    | some r =>
      match r.2 with
      | [] => some [r.1]
      | c2 :: more =>
        if c2 = ',' then
          match parseArgsF fuel more with
          | some args => some (r.1 :: args)
          | none => none
        else none

def parseArgs (cs : List Char) : Option (List (List Char)) := parseArgsF (cs.length + 1) cs

/-- Evaluate an expression of the shapes the formatter emits: either one
string literal, or concat applied to a comma-separated literal sequence. -/
def evalXPathExpr (s : String) : Option String :=
  if startsWithChars "concat(".data s.data = true ∧ s.data.getLast? = some ')' then
    match parseArgs ((s.data.drop 7).dropLast) with
    | some args => some (String.mk args.flatten)
    | none => none
  else
    match parseLit s.data with
    | some r => if r.2 = [] then some (String.mk r.1) else none
    | none => none

/- Helper lemmas for the round trip. -/

theorem takeWhile_until (q : Char) (content tail : List Char) (h : q ∉ content) :
    (content ++ q :: tail).takeWhile (fun c => c != q) = content := by
  induction content with
  | nil => simp [List.takeWhile_cons]
  | cons a as ih =>
    have ha : a ≠ q := fun he => h (he ▸ List.mem_cons_self a as)
    have hm : q ∉ as := fun hm => h (List.mem_cons_of_mem a hm)
    simp only [List.cons_append, List.takeWhile_cons]
    simp [ha, ih hm]

theorem dropWhile_until (q : Char) (content tail : List Char) (h : q ∉ content) :
    (content ++ q :: tail).dropWhile (fun c => c != q) = q :: tail := by
  induction content with
  | nil => simp [List.dropWhile_cons]
  | cons a as ih =>
    have ha : a ≠ q := fun he => h (he ▸ List.mem_cons_self a as)
    have hm : q ∉ as := fun hm => h (List.mem_cons_of_mem a hm)
    simp only [List.cons_append, List.dropWhile_cons]
    simp [ha, ih hm]

/-- Reading a well-formed literal consumes exactly its quoted content. -/
theorem parseLit_wf (q : Char) (content tail : List Char) (hq : q = '\'' ∨ q = '"')
    (hc : q ∉ content) :
    parseLit (q :: (content ++ q :: tail)) = some (content, tail) := by
  unfold parseLit
  dsimp only
  rw [if_pos hq, dropWhile_until q content tail hc]
  dsimp only
  rw [takeWhile_until q content tail hc]

/-- Token well-formedness: one quote flavour, content free of that quote,
delimited by the quote on both sides. -/
def WfTok (t : List Char) : Prop :=
  ∃ q c, (q = '\'' ∨ q = '"') ∧ q ∉ c ∧ t = q :: (c ++ [q])

/-- Content of a well-formed token. -/
def tokContent (t : List Char) : List Char := (t.drop 1).dropLast

theorem tokContent_eq (q : Char) (c : List Char) : tokContent (q :: (c ++ [q])) = c := by
  simp [tokContent]

/-- Parsing the comma join of well-formed tokens returns their contents. -/
theorem parseArgsF_join (toks : List (List Char)) :
    ∀ (fuel : Nat), (joinComma toks).length < fuel → toks ≠ [] →
    (∀ t ∈ toks, WfTok t) →
    parseArgsF fuel (joinComma toks) = some (toks.map tokContent) := by
  induction toks with
  | nil => intro fuel _ hne _; exact absurd rfl hne
  | cons t ts ih =>
    intro fuel hfuel _ hwf
    obtain ⟨q, c, hq, hc, ht⟩ := hwf t (List.mem_cons_self t ts)
    cases fuel with
    | zero => exact absurd hfuel (Nat.not_lt_zero _)
    | succ fuel =>
      cases ts with
      | nil =>
        have hj : joinComma [t] = t := rfl
        rw [hj, ht]
        unfold parseArgsF
        rw [parseLit_wf q c [] hq hc]
        simp [ht, tokContent_eq]
      | cons t2 ts2 =>
        have hj : joinComma (t :: t2 :: ts2) = t ++ ',' :: joinComma (t2 :: ts2) := rfl
        rw [hj, ht]
        have hlist : (q :: (c ++ [q])) ++ ',' :: joinComma (t2 :: ts2)
            = q :: (c ++ q :: (',' :: joinComma (t2 :: ts2))) := by
          simp
        rw [hlist]
        unfold parseArgsF
        rw [parseLit_wf q c (',' :: joinComma (t2 :: ts2)) hq hc]
        dsimp only
        rw [if_pos rfl]
        have hrec : parseArgsF fuel (joinComma (t2 :: ts2))
            = some ((t2 :: ts2).map tokContent) := by
          refine ih fuel ?_ (by simp) (fun x hx => hwf x (List.mem_cons_of_mem t hx))
          rw [hj, ht] at hfuel
          simp only [List.length_append, List.length_cons] at hfuel
          omega
        rw [hrec]
        simp [ht, tokContent_eq]

/-- Every token of the formatter is well formed, and their contents joined
in order reproduce the single-quote interleaving of the segments. -/
def joinSepChar (c : Char) : List (List Char) → List Char
  | [] => []
  | [p] => p
  | p :: rest => p ++ c :: joinSepChar c rest

theorem concatTokens_wf (parts : List (List Char)) (hp : ∀ p ∈ parts, '\'' ∉ p) :
    (∀ t ∈ concatTokens parts, WfTok t) ∧
    ((concatTokens parts).map tokContent).flatten = joinSepChar '\'' parts := by
  induction parts with
  | nil => simp [concatTokens, joinSepChar]
  | cons p rest ih =>
    have hpq : '\'' ∉ p := hp p (List.mem_cons_self p rest)
    cases rest with
    | nil =>
      constructor
      · intro t ht
        simp only [concatTokens] at ht
        by_cases hl : p.length > 0
        · rw [if_pos hl] at ht
          simp only [List.mem_singleton] at ht
          exact ⟨'\'', p, Or.inl rfl, hpq, ht⟩
        · rw [if_neg hl] at ht
          simp at ht
      · simp only [concatTokens, joinSepChar]
        by_cases hl : p.length > 0
        · rw [if_pos hl]
          simp [quoteTok, tokContent_eq]
        · rw [if_neg hl]
          have : p = [] := List.length_eq_zero.mp (by omega)
          simp [this]
    | cons p2 rest2 =>
      have hih := ih (fun x hx => hp x (List.mem_cons_of_mem p hx))
      have hsep : WfTok ['"', '\'', '"'] :=
        ⟨'"', ['\''], Or.inr rfl, by simp, rfl⟩
      constructor
      · intro t ht
        simp only [concatTokens, List.mem_append, List.mem_cons] at ht
        rcases ht with h1 | h1 | h1
        · by_cases hl : p.length > 0
          · rw [if_pos hl] at h1
            simp only [List.mem_singleton] at h1
            exact ⟨'\'', p, Or.inl rfl, hpq, h1⟩
          · rw [if_neg hl] at h1
            simp at h1
        · exact h1 ▸ hsep
        · exact hih.1 t h1
      · simp only [concatTokens]
        by_cases hl : p.length > 0
        · rw [if_pos hl]
          have hquote : tokContent (quoteTok p) = p := tokContent_eq '\'' p
          have hsepc : tokContent ['"', '\'', '"'] = ['\''] := rfl
          simp only [List.singleton_append, List.map_cons, List.flatten_cons, hquote, hsepc]
          rw [hih.2]
          simp [joinSepChar]
        · rw [if_neg hl]
          have hpe : p = [] := by
            cases p with
            | nil => rfl
            | cons a as => simp at hl
          subst hpe
          have hsepc : tokContent ['"', '\'', '"'] = ['\''] := rfl
          simp only [List.nil_append, List.map_cons, List.flatten_cons, hsepc]
          rw [hih.2]
          simp [joinSepChar]

/- Splitting facts. -/

theorem splitOnChar_ne_nil (c : Char) (l : List Char) : splitOnChar c l ≠ [] := by
  induction l with
  | nil => simp [splitOnChar]
  | cons x xs ih =>
    simp only [splitOnChar]
    by_cases hx : x = c
    · simp [hx]
    · rw [if_neg hx]
      cases hr : splitOnChar c xs with
      | nil => exact absurd hr ih
      | cons y ys => simp

theorem joinSep_splitOnChar (c : Char) (l : List Char) :
    joinSepChar c (splitOnChar c l) = l := by
  induction l with
  | nil => rfl
  | cons x xs ih =>
    simp only [splitOnChar]
    by_cases hx : x = c
    · rw [if_pos hx]
      cases hr : splitOnChar c xs with
      | nil => exact absurd hr (splitOnChar_ne_nil c xs)
      | cons y ys =>
        rw [hr] at ih
        subst hx
        simp [joinSepChar, ih]
    · rw [if_neg hx]
      cases hr : splitOnChar c xs with
      | nil => exact absurd hr (splitOnChar_ne_nil c xs)
      | cons y ys =>
        rw [hr] at ih
        cases ys with
        | nil =>
          simp only [joinSepChar] at ih ⊢
          simp [ih]
        | cons y2 ys2 =>
          simp only [joinSepChar] at ih ⊢
          simp [ih]

theorem splitOnChar_not_mem (c : Char) (l : List Char) :
    ∀ p ∈ splitOnChar c l, c ∉ p := by
  induction l with
  | nil =>
    intro p hp
    simp [splitOnChar] at hp
    subst hp
    simp
  | cons x xs ih =>
    intro p hp
    simp only [splitOnChar] at hp
    by_cases hx : x = c
    · rw [if_pos hx] at hp
      rcases List.mem_cons.mp hp with h | h
      · subst h; simp
      · exact ih p h
    · rw [if_neg hx] at hp
      cases hr : splitOnChar c xs with
      | nil => exact absurd hr (splitOnChar_ne_nil c xs)
      | cons y ys =>
        rw [hr] at hp
        rcases List.mem_cons.mp hp with h | h
        · subst h
          intro hm
          rcases List.mem_cons.mp hm with h2 | h2
          · exact hx h2.symm
          · exact ih y (by rw [hr]; exact List.mem_cons_self y ys) h2
        · exact ih p (by rw [hr]; exact List.mem_cons_of_mem y h)

theorem splitOnChar_two (c : Char) (l : List Char) (h : c ∈ l) :
    ∃ p1 p2 ps, splitOnChar c l = p1 :: p2 :: ps := by
  induction l with
  | nil => simp at h
  | cons x xs ih =>
    simp only [splitOnChar]
    by_cases hx : x = c
    · rw [if_pos hx]
      cases hr : splitOnChar c xs with
      | nil => exact absurd hr (splitOnChar_ne_nil c xs)
      | cons y ys => exact ⟨[], y, ys, rfl⟩
    · have hxs : c ∈ xs := by
        rcases List.mem_cons.mp h with h1 | h1
        · exact absurd h1.symm hx
        · exact h1
      obtain ⟨p1, p2, ps, hr⟩ := ih hxs
      rw [if_neg hx, hr]
      exact ⟨x :: p1, p2, ps, rfl⟩

theorem startsWithChars_self_append (p r : List Char) : startsWithChars p (p ++ r) = true := by
  induction p with
  | nil => rfl
  | cons a as ih => simp [startsWithChars, ih]

theorem startsWithChars_concat_of_head (c0 : Char) (l : List Char) (h : ('c' == c0) = false) :
    startsWithChars "concat(".data (c0 :: l) = false := by
  show startsWithChars ('c' :: "oncat(".data) (c0 :: l) = false
  simp [startsWithChars, h]

/- Round trip of the Literal Formatter under the evaluator, one case per
quoting strategy. -/

theorem eval_format_no_single (v : String) (h1 : v.data.contains '\'' = false) :
    formatXPathLiteral v = "'" ++ v ++ "'" ∧
    evalXPathExpr (formatXPathLiteral v) = some v := by
  have hfmt : formatXPathLiteral v = "'" ++ v ++ "'" := by
    unfold formatXPathLiteral
    rw [if_pos h1]
  refine ⟨hfmt, ?_⟩
  rw [hfmt]
  unfold evalXPathExpr
  have hdata : ("'" ++ v ++ "'").data = '\'' :: (v.data ++ ['\'']) := by
    simp [String.data_append]
  rw [hdata]
  have hns : startsWithChars "concat(".data ('\'' :: (v.data ++ ['\''])) = false :=
    startsWithChars_concat_of_head '\'' _ (by decide)
  rw [if_neg (fun hx => by rw [hns] at hx; exact Bool.noConfusion hx.1)]
  have hnm : '\'' ∉ v.data := by simpa using h1
  rw [parseLit_wf '\'' v.data [] (Or.inl rfl) hnm]
  rfl

theorem eval_format_no_double (v : String) (h1 : v.data.contains '\'' = true)
    (h2 : v.data.contains '"' = false) :
    formatXPathLiteral v = "\"" ++ v ++ "\"" ∧
    evalXPathExpr (formatXPathLiteral v) = some v := by
  have hm1 : '\'' ∈ v.data := by simpa using h1
  have hfmt : formatXPathLiteral v = "\"" ++ v ++ "\"" := by
    unfold formatXPathLiteral
    rw [if_neg (by simp [hm1]), if_pos h2]
  refine ⟨hfmt, ?_⟩
  rw [hfmt]
  unfold evalXPathExpr
  have hdata : ("\"" ++ v ++ "\"").data = '"' :: (v.data ++ ['"']) := by
    simp [String.data_append]
  rw [hdata]
  have hns : startsWithChars "concat(".data ('"' :: (v.data ++ ['"'])) = false :=
    startsWithChars_concat_of_head '"' _ (by decide)
  rw [if_neg (fun hx => by rw [hns] at hx; exact Bool.noConfusion hx.1)]
  have hnm : '"' ∉ v.data := by simpa using h2
  rw [parseLit_wf '"' v.data [] (Or.inr rfl) hnm]
  rfl

theorem eval_format_both (v : String) (h1 : v.data.contains '\'' = true)
    (h2 : v.data.contains '"' = true) :
    (∃ inner, formatXPathLiteral v = String.mk ("concat(".data ++ inner ++ [')'])) ∧
    evalXPathExpr (formatXPathLiteral v) = some v := by
  have hm1 : '\'' ∈ v.data := by simpa using h1
  have hm2 : '"' ∈ v.data := by simpa using h2
  have hfmt : formatXPathLiteral v
      = String.mk ("concat(".data
          ++ joinComma (concatTokens (splitOnChar '\'' v.data)) ++ [')']) := by
    unfold formatXPathLiteral
    rw [if_neg (by simp [hm1]), if_neg (by simp [hm2])]
  refine ⟨⟨_, hfmt⟩, ?_⟩
  rw [hfmt]
  unfold evalXPathExpr
  have hdata : (String.mk ("concat(".data
      ++ joinComma (concatTokens (splitOnChar '\'' v.data)) ++ [')'])).data
      = "concat(".data ++ joinComma (concatTokens (splitOnChar '\'' v.data)) ++ [')'] := rfl
  rw [hdata]
  have hstart : startsWithChars "concat(".data
      ("concat(".data ++ joinComma (concatTokens (splitOnChar '\'' v.data)) ++ [')']) = true := by
    rw [List.append_assoc]
    exact startsWithChars_self_append _ _
  have hlast : ("concat(".data ++ joinComma (concatTokens (splitOnChar '\'' v.data))
      ++ [')']).getLast? = some ')' := List.getLast?_concat _
  rw [if_pos ⟨hstart, hlast⟩]
  have hdrop : (("concat(".data ++ joinComma (concatTokens (splitOnChar '\'' v.data))
      ++ [')']).drop 7).dropLast = joinComma (concatTokens (splitOnChar '\'' v.data)) := by
    rw [List.append_assoc]
    have h7 : ("concat(".data).length = 7 := rfl
    rw [← h7, List.drop_left]
    exact List.dropLast_concat
  rw [hdrop]
  have hnotmem : ∀ p ∈ splitOnChar '\'' v.data, '\'' ∉ p := splitOnChar_not_mem '\'' v.data
  have hwfcts := concatTokens_wf (splitOnChar '\'' v.data) hnotmem
  obtain ⟨p1, p2, ps, hsplit⟩ := splitOnChar_two '\'' v.data hm1
  have htoksne : concatTokens (splitOnChar '\'' v.data) ≠ [] := by
    rw [hsplit]
    simp only [concatTokens]
    intro hc
    rcases List.append_eq_nil.mp hc with ⟨_, hc2⟩
    exact List.noConfusion hc2
  have hargs : parseArgs (joinComma (concatTokens (splitOnChar '\'' v.data)))
      = some ((concatTokens (splitOnChar '\'' v.data)).map tokContent) := by
    unfold parseArgs
    exact parseArgsF_join (concatTokens (splitOnChar '\'' v.data)) _ (by omega) htoksne hwfcts.1
  rw [hargs]
  dsimp only
  rw [hwfcts.2, joinSep_splitOnChar]

/-- C8: the Literal Formatter wraps a single-quote-free value in single
quotes and a double-quote-free value in double quotes; a value holding both
quote characters becomes a concat expression, and the produced expression,
evaluated under XPath 1.0 literal and concat semantics, yields exactly the
original value in every case. -/
theorem C8_literal_roundtrip (v : String) :
    (v.data.contains '\'' = false →
      formatXPathLiteral v = "'" ++ v ++ "'" ∧
      evalXPathExpr (formatXPathLiteral v) = some v) ∧
    (v.data.contains '\'' = true → v.data.contains '"' = false →
      formatXPathLiteral v = "\"" ++ v ++ "\"" ∧
      evalXPathExpr (formatXPathLiteral v) = some v) ∧
    (v.data.contains '\'' = true → v.data.contains '"' = true →
      (∃ inner, formatXPathLiteral v = String.mk ("concat(".data ++ inner ++ [')'])) ∧
      evalXPathExpr (formatXPathLiteral v) = some v) :=
  ⟨eval_format_no_single v, eval_format_no_double v, eval_format_both v⟩

/-- Witness for C8_literal_roundtrip: a value containing both quote
characters evaluates back to itself. -/
theorem C8_literal_roundtrip_witness :
    evalXPathExpr (formatXPathLiteral "a'b\"c") = some "a'b\"c" :=
  ((C8_literal_roundtrip "a'b\"c").2.2 (by decide) (by decide)).2

end XPathGen

